import Mathlib

/-!
# RTags: path codec, target resolver and decimal width (`src/RTags.h`)

A shallow embedding of `encodePath`, `decodePath`, the packed target weight
(`createTargetsValue`, `targetsValueKind`, `targetsValueIsDefinition`),
`targetRank`, `bestTarget` and `digits` from `src/RTags.h`, followed by the
properties proved about them.

Conventions of the embedding.

* A `Path` buffer is a `List Char`; one `Char` stands for one C `char`.  Every C
  `char` value is a `Char`, so a statement over all `List Char` covers all buffers.
* `int` loop counters are `Nat`: they start at `0` resp. `path.size()` and are only
  compared, incremented and shifted by `EncodedUnderscoreLength - 1`.  Buffers are
  assumed short enough for their sizes to be representable in an `int`.
* Loops carry a fuel argument and return `none` when the fuel is exhausted or when
  an access would be out of bounds; both are proved impossible for the fuel the
  entry points supply.
-/

namespace RTags

/-! ## Path codec -/

/-- The constant `enum { EncodedUnderscoreLength = 12 }`. -/
def EncodedUnderscoreLength : Nat := 12

/-- The string literal `"<underscore>"` written by `encodePath`. -/
def underscoreToken : List Char := "<underscore>".toList

/-- The string literal `"underscore>"` that both loops compare against. -/
def underscoreTail : List Char := "underscore>".toList

/-- The call `path.replace(i, n, s)`: the `n` characters from index `i` are replaced by `s`. -/
def replace (path : List Char) (i n : Nat) (s : List Char) : List Char :=
  path.take i ++ s ++ path.drop (i + n)

/-- The test `!strncmp(&ch + 1, "underscore>", EncodedUnderscoreLength - 1)` where `ch` is
`path[i]`: the `11` characters after index `i` are exactly `underscore>`. -/
def followedByTail (path : List Char) (i : Nat) : Bool :=
  (path.drop (i + 1)).take (EncodedUnderscoreLength - 1) == underscoreTail

/-- The `for` loop of `encodePath`; the state is the buffer, `i` and `size`.
The result is the returned flag together with the final buffer. -/
def encodeLoop : Nat → List Char → Nat → Nat → Option (Bool × List Char)
  | 0, path, i, size => if i < size then none else some (true, path)
  | fuel + 1, path, i, size =>
    if i < size then
      match path[i]? with
      | none => none
      | some ch =>
        if ch = '/' then
          encodeLoop fuel (path.set i '_') (i + 1) size
        else if ch = '_' then
          encodeLoop fuel (replace path i 1 underscoreToken)
            (i + (EncodedUnderscoreLength - 1) + 1) (size + (EncodedUnderscoreLength - 1))
        else if ch = '<' then
          if i + EncodedUnderscoreLength ≤ size ∧ followedByTail path i = true then
            some (false, path)
          else
            encodeLoop fuel path (i + 1) size
        else
          encodeLoop fuel path (i + 1) size
    else some (true, path)

/-- The function `bool encodePath(Path &path)`: the flag returned and the buffer left behind.
Every iteration consumes one character of the original path, so `path.length`
iterations are enough. -/
def encodePath (path : List Char) : Option (Bool × List Char) :=
  encodeLoop path.length path 0 path.length

/-- The `for` loop of `decodePath`; the state is the buffer, `i` and `size`. -/
def decodeLoop : Nat → List Char → Nat → Nat → Option (List Char)
  | 0, path, i, size => if i < size then none else some path
  | fuel + 1, path, i, size =>
    if i < size then
      match path[i]? with
      | none => none
      | some ch =>
        if ch = '_' then
          decodeLoop fuel (path.set i '/') (i + 1) size
        else if ch = '<' then
          if i + EncodedUnderscoreLength ≤ size ∧ followedByTail path i = true then
            decodeLoop fuel (replace path i EncodedUnderscoreLength ['_']) (i + 1)
              (size - (EncodedUnderscoreLength - 1))
          else
            decodeLoop fuel path (i + 1) size
        else
          decodeLoop fuel path (i + 1) size
    else some path

/-- The function `void decodePath(Path &path)`: the buffer left behind. -/
def decodePath (path : List Char) : Option (List Char) :=
  decodeLoop path.length path 0 path.length


/-! ## Target resolver -/

/-- Modelled from the spec: `Location` (`Location.h`) is not part of the sources.
A location is a file id and a position within that file. -/
structure Location where
  fileId : Nat
  offset : Nat
deriving DecidableEq

/-- The default-constructed `Location`: the null location, whose file id is `0`. -/
instance : Inhabited Location := ⟨⟨0, 0⟩⟩

/-- Modelled from the spec: the order of `Location.h`, by file id first and by
position within the file second. -/
def Location.lt (a b : Location) : Prop :=
  a.fileId < b.fileId ∨ (a.fileId = b.fileId ∧ a.offset < b.offset)

instance (a b : Location) : Decidable (Location.lt a b) := by
  unfold Location.lt; infer_instance

/-- A `Map<Location, uint16_t>` is iterated in strictly ascending key order; this
holds of the entry sequence of every map. -/
def ascendingKeys (targets : List (Location × Nat)) : Prop :=
  targets.Pairwise (fun a b => Location.lt a.1 b.1)

/-- Modelled from the spec: the `CXCursorKind` enumeration comes from libclang
(`clang-c/Index.h`) and is not part of the sources.  A cursor kind is its numeric
code; the kinds named by `targetRank` carry libclang's codes. -/
abbrev CXCursorKind := Nat

/-- Cursor kind of a struct declaration. -/
def CXCursor_StructDecl : CXCursorKind := 2
/-- Cursor kind of a class declaration. -/
def CXCursor_ClassDecl : CXCursorKind := 4
/-- Cursor kind of a field declaration. -/
def CXCursor_FieldDecl : CXCursorKind := 6
/-- Cursor kind of a function declaration. -/
def CXCursor_FunctionDecl : CXCursorKind := 8
/-- Cursor kind of a variable declaration. -/
def CXCursor_VarDecl : CXCursorKind := 9
/-- Cursor kind of a C++ method. -/
def CXCursor_CXXMethod : CXCursorKind := 21
/-- Cursor kind of a constructor. -/
def CXCursor_Constructor : CXCursorKind := 24
/-- Cursor kind of a class template. -/
def CXCursor_ClassTemplate : CXCursorKind := 31
/-- Cursor kind of a macro definition. -/
def CXCursor_MacroDefinition : CXCursorKind := 501

/-- The constant `enum { DefinitionBit = 0x1000 }`. -/
def DefinitionBit : Nat := 0x1000

/-- The function `targetsValueKind(uint16_t val)`: `val & ~DefinitionBit`, computed on `int`.
The argument is taken modulo `2 ^ 16`, the range of its type. -/
def targetsValueKind (val : Nat) : CXCursorKind :=
  (val % 2 ^ 16) &&& (2 ^ 32 - 1 - DefinitionBit)

/-- The function `targetsValueIsDefinition(uint16_t val)`: `val & DefinitionBit` as a `bool`. -/
def targetsValueIsDefinition (val : Nat) : Bool :=
  (val % 2 ^ 16) &&& DefinitionBit != 0

/-- The function `createTargetsValue(CXCursorKind kind, bool definition)`; the result is
narrowed to `uint16_t`. -/
def createTargetsValue (kind : CXCursorKind) (definition : Bool) : Nat :=
  (kind ||| (if definition then DefinitionBit else 0)) % 2 ^ 16

/-- The function `targetRank(CXCursorKind kind)`: the `switch`, one test per `case` label. -/
def targetRank (kind : CXCursorKind) : Int :=
  if kind = CXCursor_Constructor then 1
  else if kind = CXCursor_ClassDecl ∨ kind = CXCursor_StructDecl
      ∨ kind = CXCursor_ClassTemplate then 0
  else if kind = CXCursor_FieldDecl ∨ kind = CXCursor_VarDecl
      ∨ kind = CXCursor_FunctionDecl ∨ kind = CXCursor_CXXMethod then 3
  else if kind = CXCursor_MacroDefinition then 4
  else 2

/-- One iteration of the loop of `bestTarget`; the state is `(ret, bestRank)`. -/
def bestTargetStep (st : Location × Int) (t : Location × Nat) : Location × Int :=
  let rank := targetRank (targetsValueKind t.2)
  if rank > st.2 ∨ (rank = st.2 ∧ targetsValueIsDefinition t.2 = true) then (t.1, rank)
  else st

/-- The function `bestTarget(const Map<Location, uint16_t> &targets)`; `targets` is the sequence
of entries in the order the range-`for` visits them. -/
def bestTarget (targets : List (Location × Nat)) : Location :=
  (targets.foldl bestTargetStep (default, -1)).1

/-! ## Decimal width -/

/-- The `while` loop of `digits`; the state is `len` and `ret`.  The division is
the truncating division of C++. -/
def digitsLoop : Nat → Int → Int → Option Int
  | 0, len, ret => if len ≥ 10 then none else some ret
  | fuel + 1, len, ret =>
    if len ≥ 10 then digitsLoop fuel (Int.tdiv len 10) (ret + 1) else some ret

/-- The function `int digits(int len)`.  Every iteration makes `len` smaller, so
`len` iterations are enough; no value computed leaves the range of `int` when
`len` is in it. -/
def digits (len : Int) : Option Int := digitsLoop len.toNat len 1

/-! ## Derived notions used in the statements -/

/-- The rank of a packed weight: `targetRank(targetsValueKind(t.second))`. -/
def weightRank (w : Nat) : Int := targetRank (targetsValueKind w)

/-- Loop summary of `encodePath` on the part of the buffer not yet visited: the
flag returned and what that part has become.  On rejection the offending `<` and
everything after it are left as they were. -/
def encodeScan : List Char → Bool × List Char
  | [] => (true, [])
  | c :: cs =>
    if c = '/' then ((encodeScan cs).1, '_' :: (encodeScan cs).2)
    else if c = '_' then ((encodeScan cs).1, underscoreToken ++ (encodeScan cs).2)
    else if c = '<' ∧ cs.take (EncodedUnderscoreLength - 1) = underscoreTail then (false, c :: cs)
    else ((encodeScan cs).1, c :: (encodeScan cs).2)

/-- The image of one character under the encoding, in the spec's words: `_` for
`/`, the token `<underscore>` for `_`, the character itself otherwise. -/
def encodeChar (c : Char) : List Char :=
  if c = '/' then ['_'] else if c = '_' then underscoreToken else [c]

/-- The concatenation of the images of the characters of a path, in order. -/
def escaped (p : List Char) : List Char := p.flatMap encodeChar

/-- One left-to-right scan of a token, in the spec's words: `_` becomes `/`, the
sequence `<underscore>` becomes a single `_` that is not looked at again, every
other character is kept. -/
def decodeScan : List Char → List Char
  | [] => []
  | c :: cs =>
    if c = '_' then '/' :: decodeScan cs
    else if c = '<' ∧ cs.take 11 = underscoreTail then '_' :: decodeScan (cs.drop 11)
    else c :: decodeScan cs
termination_by l => l.length
decreasing_by all_goals simp_wf <;> omega

/-- The candidates of maximal rank, in iteration order. -/
def maximalCandidates (ts : List (Location × Nat)) : List (Location × Nat) :=
  ts.filter (fun e => decide (∀ f ∈ ts, weightRank f.2 ≤ weightRank e.2))

/-- Of a sequence of candidates: the key of the last one that is marked as a
definition if there is any, and otherwise the key of the first one. -/
def lastDefinitionOrFirst (cs : List (Location × Nat)) : Option Location :=
  match (cs.filter (fun e => targetsValueIsDefinition e.2)).getLast? with
  | some e => some e.1
  | none => cs.head?.map Prod.fst

/-! ## Path codec: the loops compute the scans -/

theorem getElem?_append_cons (done : List Char) (c : Char) (cs : List Char) :
    (done ++ c :: cs)[done.length]? = some c := by
  induction done with
  | nil => simp
  | cons d ds ih => simpa using ih

theorem set_append_cons (done : List Char) (c x : Char) (cs : List Char) :
    (done ++ c :: cs).set done.length x = (done ++ [x]) ++ cs := by
  induction done with
  | nil => rfl
  | cons d ds ih => simp [List.set, ih]

theorem replace_append (done mid rest s : List Char) :
    replace (done ++ (mid ++ rest)) done.length mid.length s = (done ++ s) ++ rest := by
  simp [replace, List.drop_append]

theorem followedByTail_append (done : List Char) (c : Char) (cs : List Char) :
    followedByTail (done ++ c :: cs) done.length = true ↔
      cs.take (EncodedUnderscoreLength - 1) = underscoreTail := by
  have h : (done ++ c :: cs).drop (done.length + 1) = cs := by
    rw [List.drop_append]; rfl
  simp [followedByTail, h]

theorem tail_length_le (cs : List Char)
    (h : cs.take (EncodedUnderscoreLength - 1) = underscoreTail) : 11 ≤ cs.length := by
  have := congrArg List.length h
  simp [EncodedUnderscoreLength, underscoreTail] at this
  omega

theorem encodeLoop_eq (rest : List Char) : ∀ (fuel : Nat) (done : List Char),
    rest.length ≤ fuel →
    encodeLoop fuel (done ++ rest) done.length (done.length + rest.length) =
      some ((encodeScan rest).1, done ++ (encodeScan rest).2) := by
  induction rest with
  | nil => intro fuel done _; cases fuel <;> simp [encodeLoop, encodeScan]
  | cons c cs ih =>
    intro fuel done hfuel
    cases fuel with
    | zero => simp at hfuel
    | succ fuel =>
      have hf : cs.length ≤ fuel := by simpa using hfuel
      have hlt : done.length < done.length + (c :: cs).length := by simp
      rw [encodeLoop, if_pos hlt, getElem?_append_cons]
      simp only [encodeScan]
      by_cases h1 : c = '/'
      · rw [if_pos h1, if_pos h1, set_append_cons]
        have := ih fuel (done ++ ['_']) hf
        simp only [List.length_append, List.length_cons, List.length_nil] at this ⊢
        rw [show done.length + (cs.length + 1) = done.length + (0 + 1) + cs.length by omega]
        simpa using this
      · rw [if_neg h1, if_neg h1]
        by_cases h2 : c = '_'
        · rw [if_pos h2, if_pos h2]
          have hr := replace_append done [c] cs underscoreToken
          simp only [List.singleton_append, List.length_singleton] at hr
          rw [hr]
          have := ih fuel (done ++ underscoreToken) hf
          have hl : underscoreToken.length = 12 := by decide
          simp only [List.length_append, List.length_cons, hl] at this ⊢
          rw [show done.length + (EncodedUnderscoreLength - 1) + 1 = done.length + 12 by
                simp [EncodedUnderscoreLength],
              show done.length + (cs.length + 1) + (EncodedUnderscoreLength - 1)
                  = done.length + 12 + cs.length by simp [EncodedUnderscoreLength]; omega]
          simpa using this
        · rw [if_neg h2, if_neg h2]
          have hstep := ih fuel (done ++ [c]) hf
          simp only [List.length_append, List.length_cons, List.length_nil] at hstep ⊢
          rw [show done.length + (0 + 1) + cs.length = done.length + (cs.length + 1) by omega]
            at hstep
          have hstep2 : encodeLoop fuel (done ++ c :: cs) (done.length + 1)
              (done.length + (cs.length + 1)) =
              some ((encodeScan cs).1, done ++ c :: (encodeScan cs).2) := by
            simpa using hstep
          by_cases h3 : c = '<'
          · rw [if_pos h3]
            by_cases h4 : cs.take (EncodedUnderscoreLength - 1) = underscoreTail
            · have hlen := tail_length_le cs h4
              rw [if_pos ⟨by simp [EncodedUnderscoreLength]; omega,
                (followedByTail_append done c cs).2 h4⟩, if_pos ⟨h3, h4⟩]
            · rw [if_neg (fun h => h4 ((followedByTail_append done c cs).1 h.2)),
                if_neg (fun h => h4 h.2)]
              exact hstep2
          · rw [if_neg h3, if_neg (fun h => h3 h.1)]
            exact hstep2

theorem decodeLoop_eq : ∀ (fuel : Nat) (rest done : List Char),
    rest.length ≤ fuel →
    decodeLoop fuel (done ++ rest) done.length (done.length + rest.length) =
      some (done ++ decodeScan rest) := by
  intro fuel
  induction fuel with
  | zero =>
    intro rest done h
    have : rest = [] := List.length_eq_zero.mp (Nat.le_zero.mp h)
    subst this
    simp [decodeLoop, decodeScan]
  | succ fuel ih =>
    intro rest done hfuel
    cases rest with
    | nil => simp [decodeLoop, decodeScan]
    | cons c cs =>
      have hf : cs.length ≤ fuel := by simpa using hfuel
      have hlt : done.length < done.length + (c :: cs).length := by simp
      rw [decodeLoop, if_pos hlt, getElem?_append_cons, decodeScan]
      have hstep := ih cs (done ++ [c]) hf
      simp only [List.length_append, List.length_cons, List.length_nil] at hstep ⊢
      rw [show done.length + (0 + 1) + cs.length = done.length + (cs.length + 1) by omega]
        at hstep
      have hstep2 : decodeLoop fuel (done ++ c :: cs) (done.length + 1)
          (done.length + (cs.length + 1)) = some (done ++ c :: decodeScan cs) := by
        simpa using hstep
      by_cases h1 : c = '_'
      · rw [if_pos h1, if_pos h1, set_append_cons]
        have := ih cs (done ++ ['/']) hf
        simp only [List.length_append, List.length_cons, List.length_nil] at this
        rw [show done.length + (0 + 1) + cs.length = done.length + (cs.length + 1) by omega]
          at this
        simpa using this
      · rw [if_neg h1, if_neg h1]
        by_cases h3 : c = '<'
        · rw [if_pos h3]
          by_cases h4 : cs.take 11 = underscoreTail
          · have hlen := tail_length_le cs h4
            rw [if_pos ⟨by simp [EncodedUnderscoreLength]; omega,
              (followedByTail_append done c cs).2 h4⟩, if_pos ⟨h3, h4⟩]
            have hsplit : c :: cs = (c :: cs.take 11) ++ cs.drop 11 := by simp
            have hr := replace_append done (c :: cs.take 11) (cs.drop 11) ['_']
            rw [← hsplit] at hr
            have hl : (c :: cs.take 11).length = EncodedUnderscoreLength := by
              simp [EncodedUnderscoreLength]; omega
            rw [hl] at hr
            rw [hr]
            have := ih (cs.drop 11) (done ++ ['_']) (by simp; omega)
            simp only [List.length_append, List.length_cons, List.length_nil,
              List.length_drop] at this
            rw [show done.length + (0 + 1) + (cs.length - 11)
                = done.length + (cs.length + 1) - (EncodedUnderscoreLength - 1) by
                  simp [EncodedUnderscoreLength]; omega] at this
            simpa using this
          · rw [if_neg (fun h => h4 ((followedByTail_append done c cs).1 h.2)),
              if_neg (fun h => h4 h.2)]
            exact hstep2
        · rw [if_neg h3, if_neg (fun h => h3 h.1)]
          exact hstep2

/-! ## Path codec: properties of the scans -/

theorem tail_prefix_iff (cs : List Char) :
    underscoreTail <+: cs ↔ cs.take (EncodedUnderscoreLength - 1) = underscoreTail := by
  rw [List.prefix_iff_eq_take]
  have hl : underscoreTail.length = EncodedUnderscoreLength - 1 := by decide
  rw [hl]
  exact eq_comm

theorem token_prefix_iff (c : Char) (cs : List Char) :
    underscoreToken <+: c :: cs ↔
      c = '<' ∧ cs.take (EncodedUnderscoreLength - 1) = underscoreTail := by
  have ht : underscoreToken = '<' :: underscoreTail := by decide
  rw [ht, List.cons_prefix_cons, tail_prefix_iff]
  exact and_congr_left (fun _ => eq_comm)

theorem token_infix_cons (c : Char) (cs : List Char) :
    underscoreToken <:+: c :: cs ↔
      (c = '<' ∧ cs.take (EncodedUnderscoreLength - 1) = underscoreTail)
        ∨ underscoreToken <:+: cs := by
  rw [List.infix_cons_iff, token_prefix_iff]

theorem encodeScan_fst (p : List Char) :
    (encodeScan p).1 = false ↔ underscoreToken <:+: p := by
  induction p with
  | nil => simp [encodeScan, underscoreToken]
  | cons c cs ih =>
    rw [token_infix_cons, encodeScan]
    by_cases h1 : c = '/'
    · simp [h1, ih]
    · by_cases h2 : c = '_'
      · simp [h2, ih]
      · by_cases h3 : c = '<' ∧ cs.take (EncodedUnderscoreLength - 1) = underscoreTail
        · simp [h1, h2, h3]
        · simp [h1, h2, h3, ih]

theorem encodeScan_snd (p : List Char) (h : ¬ underscoreToken <:+: p) :
    (encodeScan p).2 = escaped p := by
  induction p with
  | nil => simp [encodeScan, escaped]
  | cons c cs ih =>
    rw [token_infix_cons] at h
    push_neg at h
    have ih := ih h.2
    have h3 : ¬ (c = '<' ∧ cs.take (EncodedUnderscoreLength - 1) = underscoreTail) :=
      fun hh => h.1 hh.1 hh.2
    rw [encodeScan]
    by_cases h1 : c = '/'
    · simp [h1, ih, escaped, encodeChar]
    · by_cases h2 : c = '_'
      · simp [h2, ih, escaped, encodeChar]
      · simp [h1, h2, h3, ih, escaped, encodeChar]

theorem escaped_cons (c : Char) (cs : List Char) :
    escaped (c :: cs) = encodeChar c ++ escaped cs := by
  simp [escaped]

theorem prefix_of_prefix_escaped (s : List Char) :
    ∀ cs : List Char, (∀ x ∈ s, x ≠ '_' ∧ x ≠ '<') → s <+: escaped cs → s <+: cs := by
  induction s with
  | nil => intro cs _ _; exact List.nil_prefix
  | cons x s ih =>
    intro cs hs hp
    have hx := hs x (List.mem_cons_self _ _)
    cases cs with
    | nil => simp [escaped] at hp
    | cons c cs =>
      rw [escaped_cons] at hp
      by_cases h1 : c = '/'
      · rw [encodeChar, if_pos h1, List.singleton_append, List.cons_prefix_cons] at hp
        exact absurd hp.1 hx.1
      · by_cases h2 : c = '_'
        · have ht : underscoreToken = '<' :: underscoreTail := by decide
          rw [encodeChar, if_neg h1, if_pos h2, ht, List.cons_append,
            List.cons_prefix_cons] at hp
          exact absurd hp.1 hx.2
        · rw [encodeChar, if_neg h1, if_neg h2, List.singleton_append,
            List.cons_prefix_cons] at hp
          rw [List.cons_prefix_cons]
          exact ⟨hp.1, ih cs (fun y hy => hs y (List.mem_cons_of_mem _ hy)) hp.2⟩

theorem tail_chars : ∀ x ∈ underscoreTail, x ≠ '_' ∧ x ≠ '<' := by decide

theorem decodeScan_escaped (p : List Char) (h : ¬ underscoreToken <:+: p) :
    decodeScan (escaped p) = p := by
  induction p with
  | nil => simp [escaped, decodeScan]
  | cons c cs ih =>
    rw [token_infix_cons] at h
    push_neg at h
    have ih := ih h.2
    rw [escaped_cons]
    by_cases h1 : c = '/'
    · subst h1
      rw [encodeChar, if_pos rfl, List.singleton_append, decodeScan, if_pos rfl, ih]
    · by_cases h2 : c = '_'
      · subst h2
        have ht : underscoreToken = '<' :: underscoreTail := by decide
        have hl : underscoreTail.length = 11 := by decide
        rw [encodeChar, if_neg h1, if_pos rfl, ht, List.cons_append, decodeScan,
          if_neg (by decide), if_pos ⟨rfl, by rw [← hl, List.take_left]⟩,
          ← hl, List.drop_left, ih]
      · rw [encodeChar, if_neg h1, if_neg h2, List.singleton_append, decodeScan,
          if_neg h2, if_neg, ih]
        rintro ⟨h3, h4⟩
        have hp : underscoreTail <+: escaped cs := by
          rw [List.prefix_iff_eq_take]
          have hl : underscoreTail.length = 11 := by decide
          rw [hl]; exact h4.symm
        exact h.1 h3 ((tail_prefix_iff cs).1 (prefix_of_prefix_escaped _ cs tail_chars hp))

theorem not_mem_escaped (p : List Char) : '/' ∉ escaped p := by
  induction p with
  | nil => simp [escaped]
  | cons c cs ih =>
    rw [escaped_cons, List.mem_append]
    rintro (h | h)
    · by_cases h1 : c = '/'
      · rw [encodeChar, if_pos h1] at h; revert h; decide
      · by_cases h2 : c = '_'
        · rw [encodeChar, if_neg h1, if_pos h2] at h; revert h; decide
        · rw [encodeChar, if_neg h1, if_neg h2, List.mem_singleton] at h
          exact h1 h.symm
    · exact ih h

theorem encodePath_eq (p : List Char) :
    encodePath p = some ((encodeScan p).1, (encodeScan p).2) := by
  have := encodeLoop_eq p p.length [] (Nat.le_refl _)
  simpa [encodePath] using this

theorem decodePath_eq (t : List Char) : decodePath t = some (decodeScan t) := by
  have := decodeLoop_eq t.length t [] (Nat.le_refl _)
  simpa [decodePath] using this

theorem encodePath_accepts (p t : List Char) (h : encodePath p = some (true, t)) :
    ¬ underscoreToken <:+: p ∧ t = escaped p := by
  rw [encodePath_eq] at h
  simp only [Option.some.injEq, Prod.mk.injEq] at h
  have hn : ¬ underscoreToken <:+: p := by
    intro hi
    have := (encodeScan_fst p).2 hi
    rw [this] at h
    exact Bool.noConfusion h.1
  exact ⟨hn, by rw [← h.2, encodeScan_snd p hn]⟩

/-! ## Target resolver: the selection loop -/

theorem targetRank_nonneg (k : CXCursorKind) : 0 ≤ targetRank k := by
  unfold targetRank
  split_ifs <;> decide

theorem bestTargetStep_eq (st : Location × Int) (t : Location × Nat) :
    bestTargetStep st t =
      if weightRank t.2 > st.2 ∨ (weightRank t.2 = st.2 ∧ targetsValueIsDefinition t.2 = true)
      then (t.1, weightRank t.2) else st := rfl

theorem bestTarget_fold (ts : List (Location × Nat)) :
    (ts = [] ∧ ts.foldl bestTargetStep (default, -1) = (default, -1)) ∨
    (∃ w, ((ts.foldl bestTargetStep (default, -1)).1, w) ∈ ts ∧
      weightRank w = (ts.foldl bestTargetStep (default, -1)).2 ∧
      (∀ e ∈ ts, weightRank e.2 ≤ weightRank w) ∧
      ((∃ e ∈ ts, weightRank e.2 = weightRank w ∧ targetsValueIsDefinition e.2 = true) →
        targetsValueIsDefinition w = true)) := by
  induction ts using List.reverseRecOn with
  | nil => exact Or.inl ⟨rfl, rfl⟩
  | append_singleton ts e ih =>
    right
    rw [List.foldl_append, List.foldl_cons, List.foldl_nil, bestTargetStep_eq]
    rcases ih with ⟨hnil, hst⟩ | ⟨w, hmem, hrank, hmax, hdef⟩
    · subst hnil
      rw [hst]
      have h0 : weightRank e.2 > (-1 : Int) := by
        have := targetRank_nonneg (targetsValueKind e.2)
        unfold weightRank; omega
      rw [if_pos (Or.inl h0)]
      refine ⟨e.2, by simp, rfl, ?_, ?_⟩
      · intro e' he'
        simp only [List.nil_append, List.mem_singleton] at he'
        rw [he']
      · rintro ⟨e', he', -, hd⟩
        simp only [List.nil_append, List.mem_singleton] at he'
        rw [← he']; exact hd
    · by_cases hc : weightRank e.2 > (ts.foldl bestTargetStep (default, -1)).2 ∨
          (weightRank e.2 = (ts.foldl bestTargetStep (default, -1)).2 ∧
            targetsValueIsDefinition e.2 = true)
      · rw [if_pos hc]
        have hge : weightRank w ≤ weightRank e.2 := by
          rcases hc with h | h
          · omega
          · omega
        refine ⟨e.2, by simp, rfl, ?_, ?_⟩
        · intro e' he'
          rcases List.mem_append.1 he' with h | h
          · exact le_trans (hmax e' h) hge
          · rw [List.mem_singleton.1 h]
        · rintro ⟨e', he', hr, hd⟩
          rcases hc with h | h
          · rcases List.mem_append.1 he' with h' | h'
            · have := hmax e' h'
              omega
            · rw [← List.mem_singleton.1 h']; exact hd
          · exact h.2
      · rw [if_neg hc]
        push_neg at hc
        have hle : weightRank e.2 ≤ weightRank w := by rw [hrank]; exact hc.1
        refine ⟨w, List.mem_append_left _ hmem, hrank, ?_, ?_⟩
        · intro e' he'
          rcases List.mem_append.1 he' with h | h
          · exact hmax e' h
          · rw [List.mem_singleton.1 h]; exact hle
        · rintro ⟨e', he', hr, hd⟩
          rcases List.mem_append.1 he' with h | h
          · exact hdef ⟨e', h, hr, hd⟩
          · rw [List.mem_singleton.1 h] at hr hd
            exact absurd hd (by
              have := hc.2 (by rw [hr, hrank])
              simpa using this)

theorem bestTarget_mem (ts : List (Location × Nat)) (h : ts ≠ []) :
    ∃ w, (bestTarget ts, w) ∈ ts ∧
      (∀ e ∈ ts, weightRank e.2 ≤ weightRank w) ∧
      ((∃ e ∈ ts, weightRank e.2 = weightRank w ∧ targetsValueIsDefinition e.2 = true) →
        targetsValueIsDefinition w = true) := by
  rcases bestTarget_fold ts with ⟨hnil, -⟩ | ⟨w, hmem, -, hmax, hdef⟩
  · exact absurd hnil h
  · exact ⟨w, hmem, hmax, hdef⟩

/-! ## Path codec: the contract -/

/-- C1. Round trip: whenever `encodePath` returns `true` on a path `p` and leaves
the buffer `t`, `decodePath` run on `t` leaves exactly `p`. -/
theorem encodePath_decodePath_roundtrip (p t : List Char)
    (h : encodePath p = some (true, t)) : decodePath t = some p := by
  obtain ⟨hn, ht⟩ := encodePath_accepts p t h
  rw [decodePath_eq, ht, decodeScan_escaped p hn]

/-- C1, at `/a/_b`: the path is accepted, encoded as `_a_<underscore>b`, and the
encoded buffer decodes back to `/a/_b`. -/
theorem encodePath_decodePath_roundtrip_witness :
    encodePath ("/a/_b".toList) = some (true, "_a_<underscore>b".toList) ∧
    decodePath ("_a_<underscore>b".toList) = some ("/a/_b".toList) :=
  ⟨by decide, encodePath_decodePath_roundtrip _ _ (by decide)⟩

/-- C2. `encodePath` returns on every path, and it returns `false` exactly when the
path contains the 12-character substring `<underscore>`; `/a/<underscore>b` is
rejected and `/a/_b` is accepted. -/
theorem encodePath_rejects_iff :
    (∀ p : List Char, ∃ b t, encodePath p = some (b, t) ∧
      (b = false ↔ underscoreToken <:+: p)) ∧
    underscoreToken.length = 12 ∧
    (encodePath ("/a/<underscore>b".toList)).map Prod.fst = some false ∧
    (encodePath ("/a/_b".toList)).map Prod.fst = some true := by
  refine ⟨fun p => ⟨(encodeScan p).1, (encodeScan p).2, encodePath_eq p, encodeScan_fst p⟩,
    by decide, by decide, by decide⟩

/-- C3. `encodePath` is injective on the paths it accepts: two accepted paths that
leave the same encoded buffer are equal. -/
theorem encodePath_injective (p q t : List Char)
    (hp : encodePath p = some (true, t)) (hq : encodePath q = some (true, t)) : p = q := by
  obtain ⟨hnp, htp⟩ := encodePath_accepts p t hp
  obtain ⟨hnq, htq⟩ := encodePath_accepts q t hq
  rw [← decodeScan_escaped p hnp, ← decodeScan_escaped q hnq, ← htp, ← htq]

/-- C3, at the accepted path `a_/`: any path encoded to the same buffer is `a_/`. -/
theorem encodePath_injective_witness :
    encodePath ("a_/".toList) = some (true, "a<underscore>_".toList) ∧
    "a_/".toList = ['a', '_', '/'] :=
  ⟨by decide, encodePath_injective _ _ ("a<underscore>_".toList) (by decide) (by decide)⟩

/-- C4. For an accepted path the buffer left by `encodePath` is the concatenation,
character by character, of `_` for `/`, of `<underscore>` for `_`, and of the
character itself otherwise. -/
theorem encodePath_eq_escaped (p t : List Char)
    (h : encodePath p = some (true, t)) : t = escaped p :=
  (encodePath_accepts p t h).2

/-- C4, at `x_/<_`: the inserted escapes are not encoded again. -/
theorem encodePath_eq_escaped_witness :
    encodePath ("x_/<_".toList) =
      some (true, "x<underscore>_<<underscore>".toList) ∧
    "x<underscore>_<<underscore>".toList = escaped ("x_/<_".toList) :=
  ⟨by decide, encodePath_eq_escaped _ _ (by decide)⟩

/-- C5. `decodePath` returns on every token, and the buffer it leaves is the result
of one left-to-right scan turning `_` into `/`, `<underscore>` into a single `_`
that is not turned into `/`, and keeping every other character. -/
theorem decodePath_eq_decodeScan (t : List Char) : decodePath t = some (decodeScan t) :=
  decodePath_eq t

/-- C6. The buffer left by `encodePath` on an accepted path contains no `/`. -/
theorem encodePath_flat (p t : List Char)
    (h : encodePath p = some (true, t)) : '/' ∉ t := by
  rw [(encodePath_accepts p t h).2]
  exact not_mem_escaped p

/-- C6, at `/usr/my_dir`. -/
theorem encodePath_flat_witness :
    encodePath ("/usr/my_dir".toList) = some (true, "_usr_my<underscore>dir".toList) ∧
    '/' ∉ "_usr_my<underscore>dir".toList :=
  ⟨by decide, encodePath_flat ("/usr/my_dir".toList) _ (by decide)⟩

/-! ## Target resolver: the contract -/

/-- C7. `targetRank` is the fixed table: macro definition 4; field, variable,
function and C++ method declaration 3; constructor 1; class, struct and class
template declaration 0; every other cursor kind 2. -/
theorem targetRank_table :
    targetRank CXCursor_MacroDefinition = 4 ∧
    targetRank CXCursor_FieldDecl = 3 ∧ targetRank CXCursor_VarDecl = 3 ∧
    targetRank CXCursor_FunctionDecl = 3 ∧ targetRank CXCursor_CXXMethod = 3 ∧
    targetRank CXCursor_Constructor = 1 ∧
    targetRank CXCursor_ClassDecl = 0 ∧ targetRank CXCursor_StructDecl = 0 ∧
    targetRank CXCursor_ClassTemplate = 0 ∧
    ∀ k : CXCursorKind,
      k ∉ [CXCursor_MacroDefinition, CXCursor_FieldDecl, CXCursor_VarDecl,
        CXCursor_FunctionDecl, CXCursor_CXXMethod, CXCursor_Constructor,
        CXCursor_ClassDecl, CXCursor_StructDecl, CXCursor_ClassTemplate] →
      targetRank k = 2 := by
  refine ⟨by decide, by decide, by decide, by decide, by decide, by decide, by decide,
    by decide, by decide, ?_⟩
  intro k hk
  simp only [List.mem_cons, List.mem_singleton, List.not_mem_nil, or_false, not_or] at hk
  obtain ⟨h1, h2, h3, h4, h5, h6, h7, h8, h9⟩ := hk
  simp [targetRank, h1, h2, h3, h4, h5, h6, h7, h8, h9]

/-- C8. On the empty candidate map `bestTarget` returns the default-constructed,
null `Location`. -/
theorem bestTarget_empty : bestTarget [] = (default : Location) := rfl

/-- C9. On a non-empty candidate map the location returned by `bestTarget` is the
key of an entry whose rank is at least the rank of every entry, whatever the
definition flags; an entry whose rank is strictly greater than the rank of every
other entry is the one returned. -/
theorem bestTarget_rank_maximal (ts : List (Location × Nat)) (h : ts ≠ []) :
    (∃ w, (bestTarget ts, w) ∈ ts ∧ ∀ e ∈ ts, weightRank e.2 ≤ weightRank w) ∧
    (∀ l w, (l, w) ∈ ts → (∀ e ∈ ts, e ≠ (l, w) → weightRank e.2 < weightRank w) →
      bestTarget ts = l) := by
  obtain ⟨w, hmem, hmax, -⟩ := bestTarget_mem ts h
  refine ⟨⟨w, hmem, hmax⟩, ?_⟩
  intro l v hl hlt
  by_contra hne
  have hneq : (bestTarget ts, w) ≠ (l, v) := fun heq => hne (congrArg Prod.fst heq)
  have h1 := hlt _ hmem hneq
  have h2 := hmax _ hl
  simp only at h1 h2
  omega

/-- C9, at the two maps of the spec: a constructor beats a class declaration, and
a macro definition beats a function declaration marked as a definition. -/
theorem bestTarget_rank_maximal_witness :
    [((⟨1, 10⟩ : Location), createTargetsValue CXCursor_ClassDecl false),
      (⟨1, 20⟩, createTargetsValue CXCursor_Constructor false)] ≠ [] ∧
    bestTarget [(⟨1, 10⟩, createTargetsValue CXCursor_ClassDecl false),
      (⟨1, 20⟩, createTargetsValue CXCursor_Constructor false)] = ⟨1, 20⟩ ∧
    bestTarget [(⟨1, 10⟩, createTargetsValue CXCursor_MacroDefinition false),
      (⟨1, 20⟩, createTargetsValue CXCursor_FunctionDecl true)] = ⟨1, 10⟩ :=
  ⟨by decide,
    (bestTarget_rank_maximal _ (by decide)).2 ⟨1, 20⟩
      (createTargetsValue CXCursor_Constructor false) (by decide) (by decide),
    (bestTarget_rank_maximal
      [(⟨1, 10⟩, createTargetsValue CXCursor_MacroDefinition false),
        (⟨1, 20⟩, createTargetsValue CXCursor_FunctionDecl true)] (by decide)).2 ⟨1, 10⟩
      (createTargetsValue CXCursor_MacroDefinition false) (by decide) (by decide)⟩

/-- C10. Definition tie-break: when some entry of maximal rank is marked as a
definition, the location returned by `bestTarget` is the key of an entry of
maximal rank that is marked as a definition. -/
theorem bestTarget_prefers_definition (ts : List (Location × Nat))
    (h : ∃ e ∈ ts, (∀ f ∈ ts, weightRank f.2 ≤ weightRank e.2) ∧
      targetsValueIsDefinition e.2 = true) :
    ∃ w, (bestTarget ts, w) ∈ ts ∧ (∀ f ∈ ts, weightRank f.2 ≤ weightRank w) ∧
      targetsValueIsDefinition w = true := by
  obtain ⟨e, he, hemax, hedef⟩ := h
  obtain ⟨w, hmem, hmax, hdef⟩ := bestTarget_mem ts (List.ne_nil_of_mem he)
  refine ⟨w, hmem, hmax, hdef ⟨e, he, ?_, hedef⟩⟩
  have h1 := hemax _ hmem
  have h2 := hmax _ he
  simp only at h1
  omega

/-- C10, at the map of the spec: of two function declarations the one marked as a
definition is returned, whether it is iterated second or first. -/
theorem bestTarget_prefers_definition_witness :
    (∃ w, (bestTarget [(⟨1, 10⟩, createTargetsValue CXCursor_FunctionDecl false),
        (⟨1, 20⟩, createTargetsValue CXCursor_FunctionDecl true)], w) ∈
        [((⟨1, 10⟩ : Location), createTargetsValue CXCursor_FunctionDecl false),
          (⟨1, 20⟩, createTargetsValue CXCursor_FunctionDecl true)] ∧
      (∀ f ∈ [((⟨1, 10⟩ : Location), createTargetsValue CXCursor_FunctionDecl false),
          (⟨1, 20⟩, createTargetsValue CXCursor_FunctionDecl true)],
        weightRank f.2 ≤ weightRank w) ∧
      targetsValueIsDefinition w = true) ∧
    bestTarget [(⟨1, 10⟩, createTargetsValue CXCursor_FunctionDecl false),
      (⟨1, 20⟩, createTargetsValue CXCursor_FunctionDecl true)] = ⟨1, 20⟩ ∧
    bestTarget [(⟨1, 10⟩, createTargetsValue CXCursor_FunctionDecl true),
      (⟨1, 20⟩, createTargetsValue CXCursor_FunctionDecl false)] = ⟨1, 10⟩ :=
  ⟨bestTarget_prefers_definition _
      ⟨(⟨1, 20⟩, createTargetsValue CXCursor_FunctionDecl true), by decide, by decide,
        by decide⟩,
    by decide, by decide⟩

/-! ## Target resolver: exact description of the selection -/

theorem lastDefinitionOrFirst_singleton (e : Location × Nat) :
    lastDefinitionOrFirst [e] = some e.1 := by
  unfold lastDefinitionOrFirst
  by_cases hd : targetsValueIsDefinition e.2 = true
  · simp [List.filter, hd]
  · simp [List.filter, hd]

theorem lastDefinitionOrFirst_append_definition (cs : List (Location × Nat))
    (e : Location × Nat) (hd : targetsValueIsDefinition e.2 = true) :
    lastDefinitionOrFirst (cs ++ [e]) = some e.1 := by
  unfold lastDefinitionOrFirst
  simp [List.filter_append, List.filter, hd]

theorem lastDefinitionOrFirst_append_other (cs : List (Location × Nat))
    (e : Location × Nat) (hne : cs ≠ []) (hd : ¬ targetsValueIsDefinition e.2 = true) :
    lastDefinitionOrFirst (cs ++ [e]) = lastDefinitionOrFirst cs := by
  unfold lastDefinitionOrFirst
  cases cs with
  | nil => exact absurd rfl hne
  | cons c cs => simp [List.filter_append, List.filter, hd]

theorem bestTarget_fold_exact (ts : List (Location × Nat)) (hne : ts ≠ []) :
    (∀ f ∈ ts, weightRank f.2 ≤ (ts.foldl bestTargetStep (default, -1)).2) ∧
    (∃ f ∈ ts, weightRank f.2 = (ts.foldl bestTargetStep (default, -1)).2) ∧
    lastDefinitionOrFirst
        (ts.filter (fun f => decide (weightRank f.2 = (ts.foldl bestTargetStep (default, -1)).2)))
      = some (ts.foldl bestTargetStep (default, -1)).1 := by
  induction ts using List.reverseRecOn with
  | nil => exact absurd rfl hne
  | append_singleton ts e ih =>
    rw [List.foldl_append, List.foldl_cons, List.foldl_nil, bestTargetStep_eq]
    by_cases hnil : ts = []
    · subst hnil
      have h0 : weightRank e.2 > (-1 : Int) := by
        have := targetRank_nonneg (targetsValueKind e.2)
        unfold weightRank; omega
      simp only [List.foldl_nil, List.nil_append]
      rw [if_pos (Or.inl h0)]
      refine ⟨by simp, by simp, ?_⟩
      simp [List.filter, lastDefinitionOrFirst_singleton]
    · obtain ⟨hmax, ⟨g, hg, hgr⟩, hpick⟩ := ih hnil
      generalize ts.foldl bestTargetStep (default, -1) = st at hmax hgr hpick ⊢
      by_cases h1 : weightRank e.2 > st.2
      · rw [if_pos (Or.inl h1)]
        refine ⟨?_, ⟨e, by simp, rfl⟩, ?_⟩
        · intro f hf
          rcases List.mem_append.1 hf with h | h
          · have := hmax f h
            simp only; omega
          · rw [List.mem_singleton.1 h]
        · have hfil : ts.filter (fun f => decide (weightRank f.2 = weightRank e.2)) = [] := by
            rw [List.filter_eq_nil_iff]
            intro f hf
            have := hmax f hf
            simp only [decide_eq_true_eq]; omega
          simp only [List.filter_append, hfil, List.nil_append]
          simp [List.filter, lastDefinitionOrFirst_singleton]
      · have hle : weightRank e.2 ≤ st.2 := by omega
        by_cases h2 : weightRank e.2 = st.2
        · by_cases hd : targetsValueIsDefinition e.2 = true
          · rw [if_pos (Or.inr ⟨h2, hd⟩)]
            refine ⟨?_, ⟨e, by simp, rfl⟩, ?_⟩
            · intro f hf
              rcases List.mem_append.1 hf with h | h
              · have := hmax f h
                simp only; omega
              · rw [List.mem_singleton.1 h]
            · simp only [List.filter_append]
              have : [e].filter (fun f => decide (weightRank f.2 = weightRank e.2)) = [e] := by
                simp [List.filter]
              rw [this]
              exact lastDefinitionOrFirst_append_definition _ e hd
          · rw [if_neg (by rintro (h | h); exact h1 h; exact hd h.2)]
            refine ⟨?_, ⟨g, List.mem_append_left _ hg, hgr⟩, ?_⟩
            · intro f hf
              rcases List.mem_append.1 hf with h | h
              · exact hmax f h
              · rw [List.mem_singleton.1 h]; exact hle
            · simp only [List.filter_append]
              have : [e].filter (fun f => decide (weightRank f.2 = st.2)) = [e] := by
                simp [List.filter, h2]
              rw [this, lastDefinitionOrFirst_append_other _ e ?_ hd, hpick]
              intro hfn
              rw [List.filter_eq_nil_iff] at hfn
              exact hfn g hg (by simpa using hgr)
        · rw [if_neg (by rintro (h | h); exact h1 h; exact h2 h.1)]
          refine ⟨?_, ⟨g, List.mem_append_left _ hg, hgr⟩, ?_⟩
          · intro f hf
            rcases List.mem_append.1 hf with h | h
            · exact hmax f h
            · rw [List.mem_singleton.1 h]; exact hle
          · simp only [List.filter_append]
            have : [e].filter (fun f => decide (weightRank f.2 = st.2)) = [] := by
              simp [List.filter, h2]
            rw [this, List.append_nil, hpick]

theorem maximalCandidates_eq (ts : List (Location × Nat)) (m : Int)
    (hmax : ∀ f ∈ ts, weightRank f.2 ≤ m) (hatt : ∃ f ∈ ts, weightRank f.2 = m) :
    maximalCandidates ts = ts.filter (fun f => decide (weightRank f.2 = m)) := by
  unfold maximalCandidates
  apply List.filter_congr
  intro e he
  obtain ⟨g, hg, hgr⟩ := hatt
  have h1 := hmax e he
  by_cases h : weightRank e.2 = m
  · simp only [h, decide_True, decide_eq_true_eq]
    exact hmax
  · simp only [h, decide_False, decide_eq_false_iff_not]
    intro hall
    have := hall g hg
    omega

theorem bestTarget_exact (ts : List (Location × Nat)) (hne : ts ≠ []) :
    lastDefinitionOrFirst (maximalCandidates ts) = some (bestTarget ts) := by
  obtain ⟨hmax, hatt, hpick⟩ := bestTarget_fold_exact ts hne
  rw [maximalCandidates_eq ts _ hmax hatt, hpick]
  rfl

theorem pairwise_getLast? {α : Type} (R : α → α → Prop) (l : List α) (e : α)
    (hp : l.Pairwise R) (hl : l.getLast? = some e) : ∀ f ∈ l, f = e ∨ R f e := by
  obtain ⟨ys, rfl⟩ := List.getLast?_eq_some_iff.1 hl
  intro f hf
  rcases List.mem_append.1 hf with h | h
  · exact Or.inr ((List.pairwise_append.1 hp).2.2 f h e (List.mem_singleton.2 rfl))
  · exact Or.inl (List.mem_singleton.1 h)

theorem pairwise_head? {α : Type} (R : α → α → Prop) (l : List α) (e : α)
    (hp : l.Pairwise R) (hl : l.head? = some e) : ∀ f ∈ l, f = e ∨ R e f := by
  obtain ⟨ys, rfl⟩ := List.head?_eq_some_iff.1 hl
  intro f hf
  rcases List.mem_cons.1 hf with h | h
  · exact Or.inl h
  · exact Or.inr ((List.pairwise_cons.1 hp).1 f h)

theorem mem_of_getLast? {α : Type} (l : List α) (e : α) (hl : l.getLast? = some e) :
    e ∈ l := by
  obtain ⟨ys, rfl⟩ := List.getLast?_eq_some_iff.1 hl
  simp

theorem maximalCandidates_tie (xs ys zs : List (Location × Nat)) (a b : Location × Nat)
    (hr : weightRank a.2 = weightRank b.2)
    (hlow : ∀ f ∈ xs ++ ys ++ zs, weightRank f.2 < weightRank a.2) :
    maximalCandidates (xs ++ a :: (ys ++ b :: zs)) = [a, b] := by
  have hmax : ∀ f ∈ xs ++ a :: (ys ++ b :: zs), weightRank f.2 ≤ weightRank a.2 := by
    intro f hf
    simp only [List.mem_append, List.mem_cons] at hf
    rcases hf with h | h | h | h | h
    · exact le_of_lt (hlow f (by simp [h]))
    · rw [h]
    · exact le_of_lt (hlow f (by simp [h]))
    · rw [h, hr]
    · exact le_of_lt (hlow f (by simp [h]))
  rw [maximalCandidates_eq _ (weightRank a.2) hmax ⟨a, by simp, rfl⟩]
  have hnil : ∀ l : List (Location × Nat), (∀ f ∈ l, f ∈ xs ++ ys ++ zs) →
      l.filter (fun f => decide (weightRank f.2 = weightRank a.2)) = [] := by
    intro l hl
    rw [List.filter_eq_nil_iff]
    intro f hf
    have := hlow f (hl f hf)
    simp only [decide_eq_true_eq]; omega
  simp only [List.filter_append, List.filter_cons, decide_True, if_true, hr.symm]
  rw [hnil xs (by intro f hf; simp [hf]), hnil ys (by intro f hf; simp [hf]),
    hnil zs (by intro f hf; simp [hf])]
  rfl

/-- C14, counterexample: two function declarations tie at the best rank and
neither is marked as a definition; the earlier-iterated location is returned,
not the later one. -/
theorem bestTarget_tie_counterexample :
    Location.lt ⟨1, 10⟩ ⟨1, 20⟩ ∧
    weightRank (createTargetsValue CXCursor_FunctionDecl false) =
      weightRank (createTargetsValue CXCursor_VarDecl false) ∧
    targetsValueIsDefinition (createTargetsValue CXCursor_FunctionDecl false) = false ∧
    targetsValueIsDefinition (createTargetsValue CXCursor_VarDecl false) = false ∧
    bestTarget [(⟨1, 10⟩, createTargetsValue CXCursor_FunctionDecl false),
      (⟨1, 20⟩, createTargetsValue CXCursor_VarDecl false)] = ⟨1, 10⟩ ∧
    bestTarget [(⟨1, 10⟩, createTargetsValue CXCursor_FunctionDecl false),
      (⟨1, 20⟩, createTargetsValue CXCursor_VarDecl false)] ≠ ⟨1, 20⟩ := by
  decide

/-- C14, amended. When exactly two candidates tie at the best rank: if both are
marked as definitions `bestTarget` returns the later-iterated of the two, and if
neither is it returns the earlier-iterated of the two. -/
theorem bestTarget_tie (xs ys zs : List (Location × Nat)) (a b : Location × Nat)
    (hr : weightRank a.2 = weightRank b.2)
    (hlow : ∀ f ∈ xs ++ ys ++ zs, weightRank f.2 < weightRank a.2) :
    (targetsValueIsDefinition a.2 = true → targetsValueIsDefinition b.2 = true →
      bestTarget (xs ++ a :: (ys ++ b :: zs)) = b.1) ∧
    (targetsValueIsDefinition a.2 = false → targetsValueIsDefinition b.2 = false →
      bestTarget (xs ++ a :: (ys ++ b :: zs)) = a.1) := by
  have hex := bestTarget_exact (xs ++ a :: (ys ++ b :: zs)) (by simp)
  rw [maximalCandidates_tie xs ys zs a b hr hlow] at hex
  constructor
  · intro ha hb
    have : lastDefinitionOrFirst [a, b] = some b.1 := by
      simp [lastDefinitionOrFirst, List.filter, ha, hb]
    rw [this] at hex
    exact (Option.some.inj hex).symm
  · intro ha hb
    have : lastDefinitionOrFirst [a, b] = some a.1 := by
      simp [lastDefinitionOrFirst, List.filter, ha, hb]
    rw [this] at hex
    exact (Option.some.inj hex).symm

/-- C14, amended, at a map holding a class declaration and two function
declarations: with both marked as definitions the later one is returned, with
neither marked the earlier one. -/
theorem bestTarget_tie_witness :
    weightRank (createTargetsValue CXCursor_FunctionDecl true) =
      weightRank (createTargetsValue CXCursor_FunctionDecl true) ∧
    bestTarget [(⟨1, 5⟩, createTargetsValue CXCursor_ClassDecl true),
      (⟨1, 10⟩, createTargetsValue CXCursor_FunctionDecl true),
      (⟨1, 20⟩, createTargetsValue CXCursor_FunctionDecl true)] = ⟨1, 20⟩ ∧
    bestTarget [(⟨1, 5⟩, createTargetsValue CXCursor_ClassDecl true),
      (⟨1, 10⟩, createTargetsValue CXCursor_FunctionDecl false),
      (⟨1, 20⟩, createTargetsValue CXCursor_FunctionDecl false)] = ⟨1, 10⟩ :=
  ⟨rfl,
    (bestTarget_tie [(⟨1, 5⟩, createTargetsValue CXCursor_ClassDecl true)] [] []
      (⟨1, 10⟩, createTargetsValue CXCursor_FunctionDecl true)
      (⟨1, 20⟩, createTargetsValue CXCursor_FunctionDecl true) rfl (by decide)).1
      (by decide) (by decide),
    (bestTarget_tie [(⟨1, 5⟩, createTargetsValue CXCursor_ClassDecl true)] [] []
      (⟨1, 10⟩, createTargetsValue CXCursor_FunctionDecl false)
      (⟨1, 20⟩, createTargetsValue CXCursor_FunctionDecl false) rfl (by decide)).2
      (by decide) (by decide)⟩

/-- C15, counterexample: two function definitions tie at the best rank; the map
iterates the lower location first, and the higher location is returned, not the
lowest location marked as a definition. -/
theorem bestTarget_lowest_definition_counterexample :
    ascendingKeys [(⟨1, 10⟩, createTargetsValue CXCursor_FunctionDecl true),
      (⟨1, 20⟩, createTargetsValue CXCursor_FunctionDecl true)] ∧
    maximalCandidates [(⟨1, 10⟩, createTargetsValue CXCursor_FunctionDecl true),
      (⟨1, 20⟩, createTargetsValue CXCursor_FunctionDecl true)] =
      [(⟨1, 10⟩, createTargetsValue CXCursor_FunctionDecl true),
        (⟨1, 20⟩, createTargetsValue CXCursor_FunctionDecl true)] ∧
    targetsValueIsDefinition (createTargetsValue CXCursor_FunctionDecl true) = true ∧
    bestTarget [(⟨1, 10⟩, createTargetsValue CXCursor_FunctionDecl true),
      (⟨1, 20⟩, createTargetsValue CXCursor_FunctionDecl true)] = ⟨1, 20⟩ ∧
    bestTarget [(⟨1, 10⟩, createTargetsValue CXCursor_FunctionDecl true),
      (⟨1, 20⟩, createTargetsValue CXCursor_FunctionDecl true)] ≠ ⟨1, 10⟩ := by
  refine ⟨by unfold ascendingKeys; decide, by decide, by decide, by decide, by decide⟩

/-- C15, amended. On a map, iterated in ascending `Location` order, `bestTarget`
prefers a definition, then the highest `Location` among the definitions and the
lowest `Location` otherwise: among the candidates of maximal rank it returns the
highest location marked as a definition if any of them is a definition, and
otherwise the lowest location of maximal rank. -/
theorem bestTarget_secondary_order (ts : List (Location × Nat)) (hne : ts ≠ [])
    (hasc : ascendingKeys ts) :
    ((∃ e ∈ maximalCandidates ts, targetsValueIsDefinition e.2 = true) →
      ∃ w, (bestTarget ts, w) ∈ maximalCandidates ts ∧ targetsValueIsDefinition w = true ∧
        ∀ f ∈ maximalCandidates ts, targetsValueIsDefinition f.2 = true →
          f.1 = bestTarget ts ∨ Location.lt f.1 (bestTarget ts)) ∧
    ((¬ ∃ e ∈ maximalCandidates ts, targetsValueIsDefinition e.2 = true) →
      ∃ w, (bestTarget ts, w) ∈ maximalCandidates ts ∧
        ∀ f ∈ maximalCandidates ts,
          f.1 = bestTarget ts ∨ Location.lt (bestTarget ts) f.1) := by
  have hex := bestTarget_exact ts hne
  have hpw : (maximalCandidates ts).Pairwise (fun a b => Location.lt a.1 b.1) :=
    List.Pairwise.sublist (List.filter_sublist _) hasc
  have hpwd : ((maximalCandidates ts).filter
      (fun e => targetsValueIsDefinition e.2)).Pairwise (fun a b => Location.lt a.1 b.1) :=
    List.Pairwise.sublist (List.filter_sublist _) hpw
  unfold lastDefinitionOrFirst at hex
  constructor
  · rintro ⟨e, he, hed⟩
    cases hl : ((maximalCandidates ts).filter
        (fun e => targetsValueIsDefinition e.2)).getLast? with
    | none =>
      rw [List.getLast?_eq_none_iff, List.filter_eq_nil_iff] at hl
      exact absurd hed (hl e he)
    | some g =>
      rw [hl] at hex
      have hg1 : g.1 = bestTarget ts := Option.some.inj hex
      have hgmem := List.mem_filter.1 (mem_of_getLast? _ g hl)
      refine ⟨g.2, by rw [← hg1]; exact hgmem.1, hgmem.2, ?_⟩
      intro f hf hfd
      rcases pairwise_getLast? _ _ g hpwd hl f (List.mem_filter.2 ⟨hf, hfd⟩) with h | h
      · left; rw [h, hg1]
      · right; rw [← hg1]; exact h
  · intro hno
    cases hl : ((maximalCandidates ts).filter
        (fun e => targetsValueIsDefinition e.2)).getLast? with
    | some g =>
      have hgmem := List.mem_filter.1 (mem_of_getLast? _ g hl)
      exact absurd ⟨g, hgmem.1, hgmem.2⟩ hno
    | none =>
      rw [hl] at hex
      cases hh : (maximalCandidates ts).head? with
      | none => rw [hh] at hex; exact Option.noConfusion hex
      | some g =>
        rw [hh] at hex
        have hg1 : g.1 = bestTarget ts := Option.some.inj hex
        have hgm : g ∈ maximalCandidates ts := by
          obtain ⟨ys, hys⟩ := List.head?_eq_some_iff.1 hh
          rw [hys]; simp
        refine ⟨g.2, by rw [← hg1]; exact hgm, ?_⟩
        intro f hf
        rcases pairwise_head? _ _ g hpw hh f hf with h | h
        · left; rw [h, hg1]
        · right; rw [← hg1]; exact h

/-- C15, amended, at a map with a class definition and three function
declarations of which the two lower ones are definitions: the higher of the two
definitions is returned. -/
theorem bestTarget_secondary_order_witness :
    [((⟨1, 5⟩ : Location), createTargetsValue CXCursor_ClassDecl true),
      (⟨1, 10⟩, createTargetsValue CXCursor_FunctionDecl true),
      (⟨1, 20⟩, createTargetsValue CXCursor_FunctionDecl true),
      (⟨2, 1⟩, createTargetsValue CXCursor_FunctionDecl false)] ≠ [] ∧
    ascendingKeys [(⟨1, 5⟩, createTargetsValue CXCursor_ClassDecl true),
      (⟨1, 10⟩, createTargetsValue CXCursor_FunctionDecl true),
      (⟨1, 20⟩, createTargetsValue CXCursor_FunctionDecl true),
      (⟨2, 1⟩, createTargetsValue CXCursor_FunctionDecl false)] ∧
    bestTarget [(⟨1, 5⟩, createTargetsValue CXCursor_ClassDecl true),
      (⟨1, 10⟩, createTargetsValue CXCursor_FunctionDecl true),
      (⟨1, 20⟩, createTargetsValue CXCursor_FunctionDecl true),
      (⟨2, 1⟩, createTargetsValue CXCursor_FunctionDecl false)] = ⟨1, 20⟩ ∧
    ∃ w, (bestTarget [(⟨1, 5⟩, createTargetsValue CXCursor_ClassDecl true),
        (⟨1, 10⟩, createTargetsValue CXCursor_FunctionDecl true),
        (⟨1, 20⟩, createTargetsValue CXCursor_FunctionDecl true),
        (⟨2, 1⟩, createTargetsValue CXCursor_FunctionDecl false)], w) ∈
        maximalCandidates [(⟨1, 5⟩, createTargetsValue CXCursor_ClassDecl true),
          (⟨1, 10⟩, createTargetsValue CXCursor_FunctionDecl true),
          (⟨1, 20⟩, createTargetsValue CXCursor_FunctionDecl true),
          (⟨2, 1⟩, createTargetsValue CXCursor_FunctionDecl false)] ∧
      targetsValueIsDefinition w = true ∧
      ∀ f ∈ maximalCandidates [(⟨1, 5⟩, createTargetsValue CXCursor_ClassDecl true),
          (⟨1, 10⟩, createTargetsValue CXCursor_FunctionDecl true),
          (⟨1, 20⟩, createTargetsValue CXCursor_FunctionDecl true),
          (⟨2, 1⟩, createTargetsValue CXCursor_FunctionDecl false)],
        targetsValueIsDefinition f.2 = true →
          f.1 = bestTarget [(⟨1, 5⟩, createTargetsValue CXCursor_ClassDecl true),
            (⟨1, 10⟩, createTargetsValue CXCursor_FunctionDecl true),
            (⟨1, 20⟩, createTargetsValue CXCursor_FunctionDecl true),
            (⟨2, 1⟩, createTargetsValue CXCursor_FunctionDecl false)] ∨
          Location.lt f.1
            (bestTarget [(⟨1, 5⟩, createTargetsValue CXCursor_ClassDecl true),
              (⟨1, 10⟩, createTargetsValue CXCursor_FunctionDecl true),
              (⟨1, 20⟩, createTargetsValue CXCursor_FunctionDecl true),
              (⟨2, 1⟩, createTargetsValue CXCursor_FunctionDecl false)]) :=
  ⟨by decide, by unfold ascendingKeys; decide, by decide,
    (bestTarget_secondary_order _ (by decide) (by unfold ascendingKeys; decide)).1
      ⟨(⟨1, 10⟩, createTargetsValue CXCursor_FunctionDecl true), by decide, by decide⟩⟩

/-- C17. The initial `bestRank` of `-1` is strictly below `targetRank` of every
cursor kind, so the first iterated candidate replaces the null default, and on a
non-empty candidate map `bestTarget` returns one of the keys of the map. -/
theorem bestTarget_mem_keys (ts : List (Location × Nat)) (hne : ts ≠ []) :
    (∀ k : CXCursorKind, (-1 : Int) < targetRank k) ∧
    (∀ e : Location × Nat, bestTargetStep (default, -1) e = (e.1, weightRank e.2)) ∧
    bestTarget ts ∈ ts.map Prod.fst := by
  have hlt : ∀ k : CXCursorKind, (-1 : Int) < targetRank k := by
    intro k
    have := targetRank_nonneg k
    omega
  refine ⟨hlt, ?_, ?_⟩
  · intro e
    have h0 : weightRank e.2 > ((default, -1) : Location × Int).2 := hlt _
    rw [bestTargetStep_eq, if_pos (Or.inl h0)]
  · obtain ⟨w, hmem, -, -⟩ := bestTarget_mem ts hne
    exact List.mem_map.2 ⟨(bestTarget ts, w), hmem, rfl⟩

/-- C17, at a map with the single key `(3, 7)`, whose kind is none of the kinds
named by `targetRank`. -/
theorem bestTarget_mem_keys_witness :
    [((⟨3, 7⟩ : Location), createTargetsValue 700 false)] ≠ [] ∧
    bestTarget [(⟨3, 7⟩, createTargetsValue 700 false)] ∈
      [((⟨3, 7⟩ : Location), createTargetsValue 700 false)].map Prod.fst :=
  ⟨by decide, (bestTarget_mem_keys _ (by decide)).2.2⟩

/-- C18. On a non-empty candidate map, taking the candidates of maximal rank in
iteration order, `bestTarget` returns the last one that is marked as a definition
if there is any, and otherwise the first one. -/
theorem bestTarget_last_definition_or_first (ts : List (Location × Nat)) (hne : ts ≠ []) :
    lastDefinitionOrFirst (maximalCandidates ts) = some (bestTarget ts) :=
  bestTarget_exact ts hne

/-- C18, at a map whose candidates of maximal rank are, in order, a declaration,
two definitions and a declaration: the second definition is returned. -/
theorem bestTarget_last_definition_or_first_witness :
    [((⟨1, 1⟩ : Location), createTargetsValue CXCursor_VarDecl false),
      (⟨1, 2⟩, createTargetsValue CXCursor_Constructor true),
      (⟨1, 3⟩, createTargetsValue CXCursor_FunctionDecl true),
      (⟨1, 4⟩, createTargetsValue CXCursor_CXXMethod true),
      (⟨1, 5⟩, createTargetsValue CXCursor_FieldDecl false)] ≠ [] ∧
    maximalCandidates [(⟨1, 1⟩, createTargetsValue CXCursor_VarDecl false),
      (⟨1, 2⟩, createTargetsValue CXCursor_Constructor true),
      (⟨1, 3⟩, createTargetsValue CXCursor_FunctionDecl true),
      (⟨1, 4⟩, createTargetsValue CXCursor_CXXMethod true),
      (⟨1, 5⟩, createTargetsValue CXCursor_FieldDecl false)] =
      [(⟨1, 1⟩, createTargetsValue CXCursor_VarDecl false),
        (⟨1, 3⟩, createTargetsValue CXCursor_FunctionDecl true),
        (⟨1, 4⟩, createTargetsValue CXCursor_CXXMethod true),
        (⟨1, 5⟩, createTargetsValue CXCursor_FieldDecl false)] ∧
    bestTarget [(⟨1, 1⟩, createTargetsValue CXCursor_VarDecl false),
      (⟨1, 2⟩, createTargetsValue CXCursor_Constructor true),
      (⟨1, 3⟩, createTargetsValue CXCursor_FunctionDecl true),
      (⟨1, 4⟩, createTargetsValue CXCursor_CXXMethod true),
      (⟨1, 5⟩, createTargetsValue CXCursor_FieldDecl false)] = ⟨1, 4⟩ ∧
    lastDefinitionOrFirst (maximalCandidates
      [(⟨1, 1⟩, createTargetsValue CXCursor_VarDecl false),
        (⟨1, 2⟩, createTargetsValue CXCursor_Constructor true),
        (⟨1, 3⟩, createTargetsValue CXCursor_FunctionDecl true),
        (⟨1, 4⟩, createTargetsValue CXCursor_CXXMethod true),
        (⟨1, 5⟩, createTargetsValue CXCursor_FieldDecl false)]) =
      some (bestTarget [(⟨1, 1⟩, createTargetsValue CXCursor_VarDecl false),
        (⟨1, 2⟩, createTargetsValue CXCursor_Constructor true),
        (⟨1, 3⟩, createTargetsValue CXCursor_FunctionDecl true),
        (⟨1, 4⟩, createTargetsValue CXCursor_CXXMethod true),
        (⟨1, 5⟩, createTargetsValue CXCursor_FieldDecl false)]) :=
  ⟨by decide, by decide, by decide, bestTarget_last_definition_or_first _ (by decide)⟩

/-! ## Target resolver: the packed weight -/

theorem definitionBit_eq : DefinitionBit = 2 ^ 12 := by decide

theorem mask_testBit (i : Nat) :
    (2 ^ 32 - 1 - DefinitionBit).testBit i = (decide (i < 32) && decide (i ≠ 12)) := by
  by_cases h : i < 32
  · interval_cases i <;> decide
  · have hlt : 2 ^ 32 - 1 - DefinitionBit < 2 ^ i :=
      lt_of_lt_of_le (by decide : 2 ^ 32 - 1 - DefinitionBit < 2 ^ 32)
        (Nat.pow_le_pow_right (by decide) (by omega))
    rw [Nat.testBit_lt_two_pow hlt]
    simp [h]

theorem testBit_of_lt (k i : Nat) (hk : k < 2 ^ 16) (hi : 16 ≤ i) : k.testBit i = false :=
  Nat.testBit_lt_two_pow (lt_of_lt_of_le hk (Nat.pow_le_pow_right (by decide) hi))

theorem targetsValueKind_testBit (v i : Nat) :
    (targetsValueKind v).testBit i =
      (decide (i < 16) && v.testBit i && decide (i ≠ 12)) := by
  unfold targetsValueKind
  rw [Nat.testBit_and, Nat.testBit_mod_two_pow, mask_testBit]
  by_cases h : i < 16
  · have : i < 32 := by omega
    simp [h, this]
  · simp [h]

theorem targetsValueIsDefinition_eq (v : Nat) :
    targetsValueIsDefinition v = (decide (12 < 16) && v.testBit 12) := by
  unfold targetsValueIsDefinition
  rw [definitionBit_eq, Nat.and_two_pow, Nat.testBit_mod_two_pow]
  cases v.testBit 12 <;> simp

theorem createTargetsValue_testBit (k : Nat) (d : Bool) (i : Nat) :
    (createTargetsValue k d).testBit i =
      (decide (i < 16) && (k.testBit i || (d && decide (i = 12)))) := by
  unfold createTargetsValue
  rw [Nat.testBit_mod_two_pow, Nat.testBit_or]
  cases d
  · simp
  · have hb : DefinitionBit.testBit i = decide (i = 12) := by
      rw [definitionBit_eq, Nat.testBit_two_pow]
      by_cases h : i = 12
      · simp [h]
      · simp [h, Ne.symm h]
    simp [hb]

theorem bit12_clear (k : Nat) (h : k &&& DefinitionBit = 0) : k.testBit 12 = false := by
  rw [definitionBit_eq, Nat.and_two_pow] at h
  cases hb : k.testBit 12
  · rfl
  · rw [hb] at h; simp at h

theorem targetsValue_kind (k : Nat) (d : Bool) (hk : k < 2 ^ 16)
    (hbit : k &&& DefinitionBit = 0) : targetsValueKind (createTargetsValue k d) = k := by
  apply Nat.eq_of_testBit_eq
  intro i
  rw [targetsValueKind_testBit, createTargetsValue_testBit]
  by_cases h12 : i = 12
  · subst h12
    simp [bit12_clear k hbit]
  · by_cases h16 : i < 16
    · simp [h12, h16]
    · simp [h16, testBit_of_lt k i hk (by omega)]

theorem targetsValue_isDefinition (k : Nat) (d : Bool)
    (hbit : k &&& DefinitionBit = 0) :
    targetsValueIsDefinition (createTargetsValue k d) = d := by
  rw [targetsValueIsDefinition_eq, createTargetsValue_testBit, bit12_clear k hbit]
  simp

theorem createTargetsValue_true (k : Nat) (hk : k < 2 ^ 16) :
    createTargetsValue k true = k ||| 0x1000 := by
  unfold createTargetsValue
  have : k ||| DefinitionBit < 2 ^ 16 := Nat.or_lt_two_pow hk (by decide)
  rw [if_pos rfl, Nat.mod_eq_of_lt this]
  rfl


/-- C12. Category and definition flag are both recoverable from a packed weight:
for a cursor-kind code `k` below `2 ^ 16` with bit `0x1000` clear and a boolean
`d`, `targetsValueKind` of `createTargetsValue k d` is `k` and
`targetsValueIsDefinition` of it is `d`. -/
theorem targetsValue_recoverable (k : CXCursorKind) (d : Bool) (hk : k < 2 ^ 16)
    (hbit : k &&& 0x1000 = 0) :
    targetsValueKind (createTargetsValue k d) = k ∧
    targetsValueIsDefinition (createTargetsValue k d) = d :=
  ⟨targetsValue_kind k d hk hbit, targetsValue_isDefinition k d hbit⟩

/-- C12, at a macro definition marked as a definition. -/
theorem targetsValue_recoverable_witness :
    CXCursor_MacroDefinition < 2 ^ 16 ∧ CXCursor_MacroDefinition &&& 0x1000 = 0 ∧
    targetsValueKind (createTargetsValue CXCursor_MacroDefinition true) =
      CXCursor_MacroDefinition ∧
    targetsValueIsDefinition (createTargetsValue CXCursor_MacroDefinition true) = true :=
  ⟨by decide, by decide,
    targetsValue_recoverable CXCursor_MacroDefinition true (by decide) (by decide)⟩

/-- C16, counterexample: packing a function declaration as a definition gives
`0x1008`, with the top bit clear; the weight `0x8000` has its top bit set and is
not a definition, the weight `0x1000` has its top bit clear and is one. -/
theorem definition_top_bit_counterexample :
    createTargetsValue CXCursor_FunctionDecl true = 0x1008 ∧
    createTargetsValue CXCursor_FunctionDecl true ≠ CXCursor_FunctionDecl ||| 0x8000 ∧
    (createTargetsValue CXCursor_FunctionDecl true).testBit 15 = false ∧
    Nat.testBit 0x8000 15 = true ∧ targetsValueIsDefinition 0x8000 = false ∧
    Nat.testBit 0x1000 15 = false ∧ targetsValueIsDefinition 0x1000 = true := by
  decide

/-- C16, amended. In the 16-bit packed weight the definition flag is bit 12 (mask
`0x1000`) and the other bits hold the category code: `createTargetsValue k true`
sets exactly bit 12 on top of `k`, `targetsValueIsDefinition v` holds iff bit 12
of `v` is set, and `targetsValueKind v` is `v` with bit 12 cleared. -/
theorem definition_bit_twelve (k v : Nat) (hk : k < 2 ^ 16) (hv : v < 2 ^ 16) :
    DefinitionBit = 2 ^ 12 ∧
    createTargetsValue k true = k ||| 2 ^ 12 ∧
    (targetsValueIsDefinition v = true ↔ v.testBit 12 = true) ∧
    (∀ i, (targetsValueKind v).testBit i = (v.testBit i && decide (i ≠ 12))) := by
  refine ⟨definitionBit_eq, createTargetsValue_true k hk, ?_, ?_⟩
  · rw [targetsValueIsDefinition_eq]
    simp
  · intro i
    rw [targetsValueKind_testBit]
    by_cases h16 : i < 16
    · simp [h16]
    · simp [h16, testBit_of_lt v i hv (by omega)]

/-- C16, amended, at a function declaration and at the weight `0x1008`. -/
theorem definition_bit_twelve_witness :
    CXCursor_FunctionDecl < 2 ^ 16 ∧ 0x1008 < 2 ^ 16 ∧
    createTargetsValue CXCursor_FunctionDecl true = CXCursor_FunctionDecl ||| 2 ^ 12 ∧
    (targetsValueIsDefinition 0x1008 = true ↔ Nat.testBit 0x1008 12 = true) :=
  ⟨by decide, by decide,
    (definition_bit_twelve CXCursor_FunctionDecl 0x1008 (by decide) (by decide)).2.1,
    (definition_bit_twelve CXCursor_FunctionDecl 0x1008 (by decide) (by decide)).2.2.1⟩

/-! ## Path codec: the buffer left by a rejection -/

theorem escaped_eq_self_iff (a : List Char) :
    escaped a = a ↔ ∀ c ∈ a, c ≠ '/' ∧ c ≠ '_' := by
  induction a with
  | nil => simp [escaped]
  | cons c cs ih =>
    rw [escaped_cons]
    have ht : underscoreToken = '<' :: underscoreTail := by decide
    by_cases h1 : c = '/'
    · subst h1
      rw [encodeChar, if_pos rfl]
      constructor
      · intro h
        have := (List.cons.inj h).1
        exact absurd this (by decide)
      · intro h
        exact absurd rfl (h '/' (List.mem_cons_self _ _)).1
    · by_cases h2 : c = '_'
      · subst h2
        rw [encodeChar, if_neg h1, if_pos rfl, ht]
        constructor
        · intro h
          have := (List.cons.inj h).1
          exact absurd this (by decide)
        · intro h
          exact absurd rfl (h '_' (List.mem_cons_self _ _)).2
      · rw [encodeChar, if_neg h1, if_neg h2, List.singleton_append]
        constructor
        · intro h c' hc'
          rcases List.mem_cons.1 hc' with hc | hc
          · rw [hc]; exact ⟨h1, h2⟩
          · exact (ih.1 (List.cons.inj h).2) c' hc
        · intro h
          rw [ih.2 (fun c' hc' => h c' (List.mem_cons_of_mem _ hc'))]

theorem encodeScan_reject (a b : List Char)
    (hfirst : ∀ k, k < a.length → ¬ underscoreToken <+: (a ++ (underscoreToken ++ b)).drop k) :
    encodeScan (a ++ (underscoreToken ++ b)) = (false, escaped a ++ (underscoreToken ++ b)) := by
  induction a with
  | nil =>
    have ht : underscoreToken = '<' :: underscoreTail := by decide
    have hl : underscoreTail.length = EncodedUnderscoreLength - 1 := by decide
    have htake : (underscoreTail ++ b).take (EncodedUnderscoreLength - 1) = underscoreTail := by
      rw [← hl, List.take_left]
    simp only [List.nil_append, escaped, List.flatMap_nil]
    rw [ht, List.cons_append, encodeScan, if_neg (by decide), if_neg (by decide),
      if_pos ⟨rfl, htake⟩]
  | cons c cs ih =>
    have h0 := hfirst 0 (by simp)
    rw [List.drop_zero, List.cons_append, token_prefix_iff] at h0
    have ih := ih (fun k hk => by
      have := hfirst (k + 1) (by simpa using hk)
      simpa using this)
    rw [List.cons_append, encodeScan, ih, escaped_cons]
    by_cases h1 : c = '/'
    · simp [h1, encodeChar]
    · by_cases h2 : c = '_'
      · simp [h2, encodeChar]
      · simp [h1, h2, h0, encodeChar]

/-- C19. Rejection by `encodePath` is not atomic: on a path `a ++ <underscore> ++ b`
in which no occurrence of `<underscore>` starts inside `a`, `encodePath` returns
`false` and leaves the encoding of `a` followed by `<underscore>` and `b`
untouched; that buffer is the original path exactly when `a` contains neither
`/` nor `_`. -/
theorem encodePath_reject_buffer (a b : List Char)
    (hfirst : ∀ k, k < a.length →
      ¬ underscoreToken <+: (a ++ underscoreToken ++ b).drop k) :
    encodePath (a ++ underscoreToken ++ b) =
      some (false, escaped a ++ underscoreToken ++ b) ∧
    (escaped a ++ underscoreToken ++ b = a ++ underscoreToken ++ b ↔
      ∀ c ∈ a, c ≠ '/' ∧ c ≠ '_') := by
  constructor
  · rw [encodePath_eq]
    simp only [List.append_assoc] at hfirst ⊢
    rw [encodeScan_reject a b hfirst]
  · rw [← escaped_eq_self_iff, List.append_assoc, List.append_assoc]
    exact List.append_left_inj _

/-- C19, at `/a/<underscore>b`: the call fails and leaves `_a_<underscore>b`,
which is not the original path. -/
theorem encodePath_reject_buffer_witness :
    (∀ k, k < ("/a/".toList).length →
      ¬ underscoreToken <+: ("/a/".toList ++ underscoreToken ++ "b".toList).drop k) ∧
    "/a/".toList ++ underscoreToken ++ "b".toList = "/a/<underscore>b".toList ∧
    encodePath ("/a/".toList ++ underscoreToken ++ "b".toList) =
      some (false, escaped ("/a/".toList) ++ underscoreToken ++ "b".toList) ∧
    escaped ("/a/".toList) ++ underscoreToken ++ "b".toList = "_a_<underscore>b".toList :=
  ⟨by decide, by decide,
    (encodePath_reject_buffer ("/a/".toList) ("b".toList) (by decide)).1, by decide⟩

/-! ## Decimal width: the loop -/

theorem digitsLoop_spec : ∀ (fuel : Nat) (len ret : Int), len.toNat ≤ fuel →
    ∃ d : Nat, digitsLoop fuel len ret = some (ret + d) ∧ (len < 10 → d = 0) ∧
      (1 ≤ len → (10 : Int) ^ d ≤ len ∧ len < (10 : Int) ^ (d + 1)) := by
  intro fuel
  induction fuel with
  | zero =>
    intro len ret h
    have hl : len ≤ 0 := by omega
    refine ⟨0, ?_, fun _ => rfl, fun h1 => by omega⟩
    simp [digitsLoop]; omega
  | succ fuel ih =>
    intro len ret h
    by_cases h10 : len ≥ 10
    · have hdiv : Int.tdiv len 10 = len / 10 := Int.tdiv_eq_ediv (by omega) (by decide)
      obtain ⟨d, hd, -, hpow⟩ := ih (len / 10) (ret + 1) (by omega)
      obtain ⟨hlo, hhi⟩ := hpow (by omega)
      refine ⟨d + 1, ?_, fun h => by omega, fun _ => ?_⟩
      · rw [digitsLoop, if_pos h10, hdiv, hd]
        congr 1
        push_cast
        ring
      · have e1 : (10 : Int) ^ (d + 1) = 10 ^ d * 10 := pow_succ _ _
        have e2 : (10 : Int) ^ (d + 1 + 1) = 10 ^ d * 10 * 10 := by rw [pow_succ, e1]
        rw [e1] at hhi
        rw [e1, e2]
        generalize (10 : Int) ^ d = P at hlo hhi ⊢
        constructor <;> omega
    · refine ⟨0, ?_, fun _ => rfl, fun h1 => ?_⟩
      · rw [digitsLoop, if_neg h10]; simp
      · simp only [pow_zero, zero_add, pow_one]
        omega
theorem pow_ten_unique (len : Int) (d d' : Nat)
    (h1 : (10 : Int) ^ (d - 1) ≤ len) (h2 : len < (10 : Int) ^ d)
    (h1' : (10 : Int) ^ (d' - 1) ≤ len) (h2' : len < (10 : Int) ^ d') : d' = d := by
  have key : ∀ a b : Nat, (10 : Int) ^ (a - 1) ≤ len → len < (10 : Int) ^ b → a ≤ b := by
    intro a b ha hb
    by_contra hlt
    have hle : b ≤ a - 1 := by omega
    have : (10 : Int) ^ b ≤ (10 : Int) ^ (a - 1) := pow_le_pow_right₀ (by norm_num) hle
    omega
  exact le_antisymm (key d' d h1' h2) (key d d' h1 h2')

theorem digits_eq (len : Int) :
    ∃ d : Nat, digits len = some (d : Int) ∧ 1 ≤ d ∧ (len < 10 → d = 1) ∧
      (1 ≤ len → (10 : Int) ^ (d - 1) ≤ len ∧ len < (10 : Int) ^ d) := by
  obtain ⟨d, hd, hsmall, hpow⟩ := digitsLoop_spec len.toNat len 1 (Nat.le_refl _)
  refine ⟨d + 1, ?_, by omega, fun h => by rw [hsmall h], fun h => ?_⟩
  · rw [digits, hd]
    congr 1
    push_cast
    ring
  · simpa using hpow h

/-- C20. The loop of `digits` terminates on every `int`; the result is `1` for
every `len < 10`, zero and negative values included, and for every `len ≥ 1` it
is the number `d` of decimal digits of `len`, the unique `d` with
`10 ^ (d - 1) ≤ len < 10 ^ d`. -/
theorem digits_decimal (len : Int) :
    ∃ d : Nat, digits len = some (d : Int) ∧ (len < 10 → d = 1) ∧
      (1 ≤ len → (10 : Int) ^ (d - 1) ≤ len ∧ len < (10 : Int) ^ d ∧
        ∀ d' : Nat, (10 : Int) ^ (d' - 1) ≤ len → len < (10 : Int) ^ d' → d' = d) := by
  obtain ⟨d, hd, -, hsmall, hpow⟩ := digits_eq len
  refine ⟨d, hd, hsmall, fun h => ?_⟩
  obtain ⟨h1, h2⟩ := hpow h
  exact ⟨h1, h2, fun d' h1' h2' => pow_ten_unique len d d' h1 h2 h1' h2'⟩

end RTags
